import Mathlib

/-!
Shallow embedding of `scripts/examples/auto_guided_remediation.py`, a
feedback-controlled dependency-remediation script: per strategy it
repeatedly asks `osv-scanner fix` for candidate upgrades, validates them
with `npm ci` + `npm run test`, grows the batch on success, blocklists
newly implicated packages on failure, and stops at a fixed point; a
selector then keeps the strategy with the fewest remaining
vulnerabilities.

External subprocesses (the fixer invocation and the two validation
commands) are modelled as behaviour functions indexed by the round
number, which covers every deterministic or history-dependent behaviour
of the real tools.  The `while True` loop is modelled with explicit
fuel; termination of the script's loop is the existence of a sufficient
fuel.
-/

namespace AutoGuidedRemediation

/-! ## Output parsing in `run_fix` (lines 63-80 of the script)

`run_fix` scrapes the tool's text output with three regexes:
`UPGRADED-PACKAGE: (.*),(.*),(.*)` (per match, group 1 is collected),
`REMAINING-VULNS:\s*(\d+)` and `UNFIXABLE-VULNS:\s*(\d+)` (first match,
the digits).  `.` does not match a newline, so the upgraded-package
matches are line-local; `\s` may span newlines.  Matching is modelled
character-exactly for ASCII output (Python's `\d`/`\s` also accept
further Unicode characters, which the tool's markers never produce). -/

def UPGRADED_MARKER : List Char := "UPGRADED-PACKAGE: ".toList

def REMAINING_MARKER : List Char := "REMAINING-VULNS:".toList

def UNFIXABLE_MARKER : List Char := "UNFIXABLE-VULNS:".toList

/-- The characters of `r` strictly before its last comma, if any. -/
def beforeLastComma (r : List Char) : Option (List Char) :=
  match r.reverse.dropWhile (fun c => c ≠ ',') with
  | [] => none
  | _ :: rest => some rest.reverse

/-- Group 1 of a greedy `(.*),(.*),(.*)` match against the whole of `r`:
everything before the second-to-last comma.  `none` when `r` has fewer
than two commas (the regex cannot match at this start position). -/
def group1 (r : List Char) : Option (List Char) :=
  (beforeLastComma r).bind beforeLastComma

/-- Leftmost match of `UPGRADED-PACKAGE: (.*),(.*),(.*)` inside one line,
returning group 1.  A marker occurrence whose remainder has fewer than
two commas does not match, and scanning resumes at the next character,
as Python's regex engine does. -/
def lineMatch : List Char → Option (List Char)
  | [] => none
  | c :: cs =>
    if UPGRADED_MARKER.isPrefixOf (c :: cs) then
      match group1 ((c :: cs).drop UPGRADED_MARKER.length) with
      | some g => some g
      | none => lineMatch cs
    else lineMatch cs

/-- Split on newline characters (the only character `.` cannot match). -/
def splitLines (acc : List Char) : List Char → List (List Char)
  | [] => [acc.reverse]
  | c :: cs =>
    if c = '\n' then acc.reverse :: splitLines [] cs
    else splitLines (c :: acc) cs

/-- Model of `[match[1] for match in re.finditer(r'UPGRADED-PACKAGE: (.*),(.*),(.*)', output)]`:
since a match runs greedily to the end of its line, there is at most one
match per line, and the matches are the per-line leftmost ones in order. -/
def upgradedOf (output : String) : List String :=
  ((splitLines [] output.toList).filterMap lineMatch).map fun g => String.mk g

/-- Python's `\s` on the ASCII range. -/
def isPySpace (c : Char) : Bool :=
  c = ' ' || c = '\t' || c = '\n' || c = '\x0d' || c = '\x0b' || c = '\x0c'

/-- Python `int()` on a nonempty ASCII digit string. -/
def digitsToNat (ds : List Char) : Nat :=
  ds.foldl (fun acc c => acc * 10 + (c.toNat - 48)) 0

/-- Model of `re.search(marker + r'\s*(\d+)', output)`, returning the parsed count:
the leftmost marker occurrence followed (after a greedy whitespace run)
by at least one digit wins; the digits are read greedily. -/
def scanCount (marker : List Char) : List Char → Option Nat
  | [] => none
  | c :: cs =>
    if marker.isPrefixOf (c :: cs) then
      let ds := (((c :: cs).drop marker.length).dropWhile isPySpace).takeWhile Char.isDigit
      if ds = [] then scanCount marker cs else some (digitsToNat ds)
    else scanCount marker cs

/-! ## `run_fix` (lines 34-80) -/

/-- The triple `run_fix` returns: `upgraded`, `remaining_vulns`,
`unfixable_vulns` (lines 68-80). -/
structure FixOut where
  upgraded : List String
  remaining : Option Nat
  unfixable : Option Nat
deriving DecidableEq

/-- Outcome of `subprocess.check_output(cmd, text=True)`: either the
captured stdout of a zero-exit invocation, or a `CalledProcessError`
carrying optional captured `stdout` and `stderr`. -/
inductive Invocation where
  | ok (stdout : String)
  | err (stdout : Option String) (stderr : Option String)
deriving DecidableEq

/-- The text `run_fix` goes on to parse: the captured output on success,
`(error.stdout or '') + (error.stderr or '')` on failure (lines 63-66). -/
def capturedOutput : Invocation → String
  | .ok out => out
  | .err so se => so.getD "" ++ se.getD ""

/-- Model of `run_fix`, given the fixer invocation's outcome (the preceding
`git checkout` reset is assumed to have succeeded; its failure is fatal
by design, §4.1 of the spec). -/
def run_fix (inv : Invocation) : FixOut :=
  let output := capturedOutput inv
  ⟨upgradedOf output, scanCount REMAINING_MARKER output.toList,
    scanCount UNFIXABLE_MARKER output.toList⟩

/-! ## `run_loop` (lines 83-141)

The loop's mutable state, one round of its body, and the fuelled loop.
`fix round n blocklist` is the behaviour of `run_fix` at a given round
(covering any tool behaviour); `valid round = (install_failed,
tests_failed)` is the behaviour of the two `subprocess.call` checks. -/

structure LoopState where
  applied_changes : List String
  blocklist_entries : List String
  n_patches : Nat
  total_unfixable : Option Nat
deriving DecidableEq

/-- The tuple `run_loop` returns (line 141). -/
structure LoopResult where
  applied_changes : List String
  remaining_vulns : Option Nat
  total_unfixable : Option Nat
  blocklist_entries : List String
deriving DecidableEq

inductive StepOut where
  | done (res : LoopResult)
  | next (st : LoopState)
deriving DecidableEq

/-- One iteration of the `while True` body (lines 97-130): acquire
candidates; exit at the fixed point `candidate_changes ==
applied_changes`; otherwise run `npm ci` and `npm run test` and branch
on failure and on `n_patches == 0` exactly as the script does. -/
def loopStep (fix : Nat → Nat → List String → FixOut) (valid : Nat → Bool × Bool)
    (round : Nat) (st : LoopState) : StepOut :=
  let out := fix round st.n_patches st.blocklist_entries
  if out.upgraded = st.applied_changes then
    .done ⟨st.applied_changes, out.remaining, st.total_unfixable, st.blocklist_entries⟩
  else
    let v := valid round
    if v.1 || v.2 then
      if st.n_patches = 0 then
        .next { st with total_unfixable := out.unfixable, n_patches := st.n_patches + 1 }
      else
        .next { st with blocklist_entries :=
          st.blocklist_entries ++ out.upgraded.filter (· ∉ st.applied_changes) }
    else
      if st.n_patches = 0 then
        .done ⟨out.upgraded, out.remaining, st.total_unfixable, st.blocklist_entries⟩
      else
        .next { st with applied_changes := out.upgraded, n_patches := st.n_patches + 1 }

/-- The `while True` loop with fuel; `none` means the loop is still
running after `fuel` rounds. -/
def loopGo (fix : Nat → Nat → List String → FixOut) (valid : Nat → Bool × Bool) :
    Nat → Nat → LoopState → Option LoopResult
  | 0, _, _ => none
  | fuel + 1, round, st =>
    match loopStep fix valid round st with
    | .done res => some res
    | .next st2 => loopGo fix valid fuel (round + 1) st2

/-- Initial state: `applied_changes = []`, `blocklist_entries = []`, `n_patches = 0`,
`total_unfixable = None` (lines 88-95). -/
def initState : LoopState := ⟨[], [], 0, none⟩

/-- Model of `run_loop` for one strategy, with the given external behaviours. -/
def run_loop (fix : Nat → Nat → List String → FixOut) (valid : Nat → Bool × Bool)
    (fuel : Nat) : Option LoopResult :=
  loopGo fix valid fuel 0 initState

/-- The script's loop terminates (for some fuel the fuelled model exits). -/
def LoopTerminates (fix : Nat → Nat → List String → FixOut)
    (valid : Nat → Bool × Bool) : Prop :=
  ∃ fuel res, run_loop fix valid fuel = some res

/-- The state at the start of round `r`, `none` once the loop has exited. -/
def traceState (fix : Nat → Nat → List String → FixOut) (valid : Nat → Bool × Bool) :
    Nat → Option LoopState
  | 0 => some initState
  | r + 1 =>
    match traceState fix valid r with
    | some st =>
      match loopStep fix valid r st with
      | .next st2 => some st2
      | .done _ => none
    | none => none

/-! ## Strategy selection (lines 10-17 and 144-179) -/

def PATCH_STRATEGIES : List (List String) :=
  [["--strategy=in-place"], ["--strategy=relock"]]

/-- The module-level best-result accumulators (lines 144-148). -/
structure Best where
  best_strategy : Option (List String)
  best_changes : List String
  best_blocklist : List String
  best_remaining : Nat
  best_unfixable : Option Nat
deriving DecidableEq

/-- The value of `sys.maxsize` on a 64-bit CPython build. -/
def sys_maxsize : Nat := 2 ^ 63 - 1

def initBest : Best := ⟨none, [], [], sys_maxsize, none⟩

/-- The comparison after each strategy's run (lines 154-163):
`strategy_changes and strategy_remaining is not None and
strategy_remaining < best_remaining` replaces every best field. -/
def updateBest (b : Best) (strategy_args : List String) (r : LoopResult) : Best :=
  match r.remaining_vulns with
  | none => b
  | some rem =>
    if r.applied_changes ≠ [] ∧ rem < b.best_remaining then
      ⟨some strategy_args, r.applied_changes, r.blocklist_entries, rem, r.total_unfixable⟩
    else b

/-- The `for strategy_args in PATCH_STRATEGIES` fold, given each
strategy's `run_loop` outcome. -/
def selectBest (runs : List (List String × LoopResult)) : Best :=
  runs.foldl (fun b p => updateBest b p.1 p.2) initBest

/-- Python truthiness of an `Optional[int]`: `None` and `0` are falsy. -/
def pyTruthyOptNat : Option Nat → Bool
  | none => false
  | some k => k != 0

/-- Line 178, `if best_unfixable:` — whether the final report prints the
unfixable-by-upgrade count. -/
def reportShowsUnfixable (b : Best) : Bool :=
  pyTruthyOptNat b.best_unfixable

/-! ## Branch computation lemmas for one loop round -/

theorem loopStep_fixedpoint {fix : Nat → Nat → List String → FixOut}
    {valid : Nat → Bool × Bool} {r : Nat} {st : LoopState}
    (h1 : (fix r st.n_patches st.blocklist_entries).upgraded = st.applied_changes) :
    loopStep fix valid r st = StepOut.done
      ⟨st.applied_changes, (fix r st.n_patches st.blocklist_entries).remaining,
        st.total_unfixable, st.blocklist_entries⟩ := by
  simp [loopStep, h1]

theorem loopStep_fail0 {fix : Nat → Nat → List String → FixOut}
    {valid : Nat → Bool × Bool} {r : Nat} {st : LoopState}
    (h1 : (fix r st.n_patches st.blocklist_entries).upgraded ≠ st.applied_changes)
    (h2 : ((valid r).1 || (valid r).2) = true) (h3 : st.n_patches = 0) :
    loopStep fix valid r st = StepOut.next
      { st with total_unfixable := (fix r st.n_patches st.blocklist_entries).unfixable,
                n_patches := st.n_patches + 1 } := by
  have h1' : (fix r 0 st.blocklist_entries).upgraded ≠ st.applied_changes := by
    rw [← h3]; exact h1
  simp [loopStep, h1', h2, h3]

theorem loopStep_failn {fix : Nat → Nat → List String → FixOut}
    {valid : Nat → Bool × Bool} {r : Nat} {st : LoopState}
    (h1 : (fix r st.n_patches st.blocklist_entries).upgraded ≠ st.applied_changes)
    (h2 : ((valid r).1 || (valid r).2) = true) (h3 : st.n_patches ≠ 0) :
    loopStep fix valid r st = StepOut.next
      { st with blocklist_entries := (st.blocklist_entries
          ++ (fix r st.n_patches st.blocklist_entries).upgraded.filter
              (· ∉ st.applied_changes)) } := by
  simp [loopStep, h1, h2, h3]

theorem loopStep_pass0 {fix : Nat → Nat → List String → FixOut}
    {valid : Nat → Bool × Bool} {r : Nat} {st : LoopState}
    (h1 : (fix r st.n_patches st.blocklist_entries).upgraded ≠ st.applied_changes)
    (h2 : ((valid r).1 || (valid r).2) = false) (h3 : st.n_patches = 0) :
    loopStep fix valid r st = StepOut.done
      ⟨(fix r st.n_patches st.blocklist_entries).upgraded,
        (fix r st.n_patches st.blocklist_entries).remaining,
        st.total_unfixable, st.blocklist_entries⟩ := by
  have h1' : (fix r 0 st.blocklist_entries).upgraded ≠ st.applied_changes := by
    rw [← h3]; exact h1
  simp [loopStep, h1', h2, h3]

theorem loopStep_passn {fix : Nat → Nat → List String → FixOut}
    {valid : Nat → Bool × Bool} {r : Nat} {st : LoopState}
    (h1 : (fix r st.n_patches st.blocklist_entries).upgraded ≠ st.applied_changes)
    (h2 : ((valid r).1 || (valid r).2) = false) (h3 : st.n_patches ≠ 0) :
    loopStep fix valid r st = StepOut.next
      { st with applied_changes := (fix r st.n_patches st.blocklist_entries).upgraded,
                n_patches := st.n_patches + 1 } := by
  simp [loopStep, h1, h2, h3]

/-- Inversion for a continuing round. -/
theorem loopStep_next_inv {fix : Nat → Nat → List String → FixOut}
    {valid : Nat → Bool × Bool} {r : Nat} {st st2 : LoopState}
    (h : loopStep fix valid r st = StepOut.next st2) :
    (fix r st.n_patches st.blocklist_entries).upgraded ≠ st.applied_changes ∧
      ((((valid r).1 || (valid r).2) = true ∧ st.n_patches = 0 ∧
          st2 = { st with
            total_unfixable := (fix r st.n_patches st.blocklist_entries).unfixable,
            n_patches := st.n_patches + 1 })
        ∨ (((valid r).1 || (valid r).2) = true ∧ st.n_patches ≠ 0 ∧
            st2 = { st with blocklist_entries := (st.blocklist_entries
              ++ (fix r st.n_patches st.blocklist_entries).upgraded.filter
                  (· ∉ st.applied_changes)) })
        ∨ (((valid r).1 || (valid r).2) = false ∧ st.n_patches ≠ 0 ∧
            st2 = { st with
              applied_changes := (fix r st.n_patches st.blocklist_entries).upgraded,
              n_patches := st.n_patches + 1 })) := by
  by_cases h1 : (fix r st.n_patches st.blocklist_entries).upgraded = st.applied_changes
  · rw [@loopStep_fixedpoint fix valid r st h1] at h
    exact absurd h (by simp)
  refine ⟨h1, ?_⟩
  by_cases h2 : ((valid r).1 || (valid r).2) = true
  · by_cases h3 : st.n_patches = 0
    · rw [loopStep_fail0 h1 h2 h3] at h
      exact Or.inl ⟨h2, h3, (StepOut.next.inj h).symm⟩
    · rw [loopStep_failn h1 h2 h3] at h
      exact Or.inr (Or.inl ⟨h2, h3, (StepOut.next.inj h).symm⟩)
  · have h2' : ((valid r).1 || (valid r).2) = false := by
      cases hb : ((valid r).1 || (valid r).2) with
      | true => exact absurd hb h2
      | false => rfl
    by_cases h3 : st.n_patches = 0
    · rw [loopStep_pass0 h1 h2' h3] at h
      exact absurd h (by simp)
    · rw [loopStep_passn h1 h2' h3] at h
      exact Or.inr (Or.inr ⟨h2', h3, (StepOut.next.inj h).symm⟩)

/-- Inversion for an exiting round. -/
theorem loopStep_done_inv {fix : Nat → Nat → List String → FixOut}
    {valid : Nat → Bool × Bool} {r : Nat} {st : LoopState} {res : LoopResult}
    (h : loopStep fix valid r st = StepOut.done res) :
    ((fix r st.n_patches st.blocklist_entries).upgraded = st.applied_changes ∧
        res = ⟨st.applied_changes, (fix r st.n_patches st.blocklist_entries).remaining,
          st.total_unfixable, st.blocklist_entries⟩)
      ∨ ((fix r st.n_patches st.blocklist_entries).upgraded ≠ st.applied_changes ∧
          ((valid r).1 || (valid r).2) = false ∧ st.n_patches = 0 ∧
          res = ⟨(fix r st.n_patches st.blocklist_entries).upgraded,
            (fix r st.n_patches st.blocklist_entries).remaining,
            st.total_unfixable, st.blocklist_entries⟩) := by
  by_cases h1 : (fix r st.n_patches st.blocklist_entries).upgraded = st.applied_changes
  · rw [@loopStep_fixedpoint fix valid r st h1] at h
    exact Or.inl ⟨h1, (StepOut.done.inj h).symm⟩
  by_cases h2 : ((valid r).1 || (valid r).2) = true
  · by_cases h3 : st.n_patches = 0
    · rw [loopStep_fail0 h1 h2 h3] at h
      exact absurd h (by simp)
    · rw [loopStep_failn h1 h2 h3] at h
      exact absurd h (by simp)
  · have h2' : ((valid r).1 || (valid r).2) = false := by
      cases hb : ((valid r).1 || (valid r).2) with
      | true => exact absurd hb h2
      | false => rfl
    by_cases h3 : st.n_patches = 0
    · rw [loopStep_pass0 h1 h2' h3] at h
      exact Or.inr ⟨h1, h2', h3, (StepOut.done.inj h).symm⟩
    · rw [loopStep_passn h1 h2' h3] at h
      exact absurd h (by simp)

/-- A state at round `r + 1` comes from a continuing step at round `r`. -/
theorem traceState_succ_inv {fix : Nat → Nat → List String → FixOut}
    {valid : Nat → Bool × Bool} {r : Nat} {st2 : LoopState}
    (h : traceState fix valid (r + 1) = some st2) :
    ∃ st, traceState fix valid r = some st
      ∧ loopStep fix valid r st = StepOut.next st2 := by
  simp only [traceState] at h
  cases htr : traceState fix valid r with
  | none => simp [htr] at h
  | some st =>
    simp only [htr] at h
    cases hs : loopStep fix valid r st with
    | done res => simp [hs] at h
    | next s2 =>
      simp only [hs, Option.some.injEq] at h
      exact ⟨st, rfl, by rw [hs, h]⟩

/-- A terminating run exits through a `done` step taken from a trace state. -/
theorem loopGo_done_trace (fix : Nat → Nat → List String → FixOut)
    (valid : Nat → Bool × Bool) :
    ∀ fuel r st res, traceState fix valid r = some st →
      loopGo fix valid fuel r st = some res →
      ∃ r2 st2, traceState fix valid r2 = some st2
        ∧ loopStep fix valid r2 st2 = StepOut.done res := by
  intro fuel
  induction fuel with
  | zero => intro r st res _ h; simp [loopGo] at h
  | succ m ih =>
    intro r st res htr h
    rw [loopGo] at h
    cases hs : loopStep fix valid r st with
    | done res2 =>
      simp only [hs, Option.some.injEq] at h
      exact ⟨r, st, htr, by rw [hs, h]⟩
    | next st2 =>
      simp only [hs] at h
      exact ih (r + 1) st2 res (by simp only [traceState, htr, hs]) h

/-! ## Concrete behaviours used in counterexamples and witnesses -/

/-- An acquisition that always proposes the single package `pkgA`:
deterministic in (blocklist, budget) and drawn from a one-element
universe. -/
def constAcq : Nat → Nat → List String → FixOut :=
  fun _ _ _ => ⟨["pkgA"], none, none⟩

/-- Install and tests both fail, every round. -/
def failValid : Nat → Bool × Bool := fun _ => (true, true)

/-- Install and tests both pass, every round. -/
def passValid : Nat → Bool × Bool := fun _ => (false, false)

/-- One acquisition that proposes `pkgA` with 2 vulnerabilities left. -/
def oneShotFix : Nat → Nat → List String → FixOut :=
  fun _ _ _ => ⟨["pkgA"], some 2, none⟩

/-- An acquisition proposing `pkgA, pkgB` with counts 2 remaining / 1
unfixable, regardless of state. -/
def pairFix : Nat → Nat → List String → FixOut :=
  fun _ _ _ => ⟨["pkgA", "pkgB"], some 2, some 1⟩

/-- An acquisition that immediately reports nothing to upgrade. -/
def emptyFix : Nat → Nat → List String → FixOut :=
  fun _ _ _ => ⟨[], none, none⟩

/-- Install succeeds but the test suite fails, every round. -/
def testsFailValid : Nat → Bool × Bool := fun _ => (false, true)

/-! ## C2 — termination conditions of the loop -/

/-- C2 counterexample: the claim says `candidates == applied` is the sole
exit condition, but a first-round validation pass with `n_patches == 0`
(lines 125-127) ends the loop although that round's candidate set
differs from the applied set it was compared against. -/
theorem c2_counterexample :
    run_loop oneShotFix passValid 1 = some ⟨["pkgA"], some 2, none, []⟩
      ∧ (oneShotFix 0 initState.n_patches initState.blocklist_entries).upgraded
          ≠ initState.applied_changes := by
  constructor
  · rfl
  · decide

/-- C2 (amended): a round ends the loop exactly when the acquisition's
candidate set equals the currently applied set, or when validation
passes while still in all-at-once mode (`n_patches == 0`); no other
condition ends the loop. -/
theorem c2_exit_conditions (fix : Nat → Nat → List String → FixOut)
    (valid : Nat → Bool × Bool) (r : Nat) (st : LoopState) :
    (∃ res, loopStep fix valid r st = StepOut.done res) ↔
      ((fix r st.n_patches st.blocklist_entries).upgraded = st.applied_changes
        ∨ ((valid r).1 = false ∧ (valid r).2 = false ∧ st.n_patches = 0)) := by
  constructor
  · rintro ⟨res, h⟩
    rcases loopStep_done_inv h with ⟨h1, _⟩ | ⟨_, h2, h3, _⟩
    · exact Or.inl h1
    · rcases Bool.or_eq_false_iff.mp h2 with ⟨hv1, hv2⟩
      exact Or.inr ⟨hv1, hv2, h3⟩
  · rintro (h1 | ⟨hv1, hv2, h3⟩)
    · exact ⟨_, loopStep_fixedpoint h1⟩
    · by_cases h1 : (fix r st.n_patches st.blocklist_entries).upgraded
          = st.applied_changes
      · exact ⟨_, loopStep_fixedpoint h1⟩
      · exact ⟨_, loopStep_pass0 h1 (by rw [hv1, hv2]; rfl) h3⟩

/-! ## C3 — acquisition failure handling in `run_fix` -/

/-- A failing invocation whose captured output still carries an
upgraded-package marker. -/
def failingInvocation : Invocation :=
  .err (some "UPGRADED-PACKAGE: lodash,4.17.20,4.17.21") none

/-- C3 counterexample: a failing acquisition invocation does not make
`run_fix` return `([], None, None)` — the script parses the captured
output of the failed call (lines 63-68), so markers in it still produce
candidates. -/
theorem c3_counterexample :
    run_fix failingInvocation = ⟨["lodash"], none, none⟩
      ∧ run_fix failingInvocation ≠ ⟨[], none, none⟩ := by
  constructor
  · rfl
  · decide

/-- C3 (amended): `run_fix` never propagates the acquisition failure; it
parses the failed invocation's captured combined output exactly as it
parses a successful invocation's output, so it returns
`([], None, None)` precisely when that output yields no markers — in
particular when no output was captured. -/
theorem c3_failure_output_parsed (so se : Option String) :
    run_fix (.err so se) = run_fix (.ok (so.getD "" ++ se.getD ""))
      ∧ run_fix (.err none none) = ⟨[], none, none⟩ :=
  ⟨rfl, by decide⟩

/-! ## C4 — blocklist growth on incremental validation failure -/

/-- Each continuing round extends the blocklist on the right. -/
theorem loopStep_blocklist_extends {fix : Nat → Nat → List String → FixOut}
    {valid : Nat → Bool × Bool} {r : Nat} {st st2 : LoopState}
    (h : loopStep fix valid r st = StepOut.next st2) :
    st.blocklist_entries <+: st2.blocklist_entries := by
  rcases (loopStep_next_inv h).2 with ⟨_, _, h4⟩ | ⟨_, _, h4⟩ | ⟨_, _, h4⟩
  · subst h4; exact List.prefix_refl _
  · subst h4; exact List.prefix_append _ _
  · subst h4; exact List.prefix_refl _

/-- C4: when validation fails in incremental mode (`n_patches ≠ 0`),
exactly the candidates not already in `applied_changes` are appended to
the blocklist and `n_patches` is unchanged; and along any one run the
blocklist only ever grows on the right, so the blocklist of an earlier
round is a prefix (hence a subset) of the blocklist of any later
round. -/
theorem c4_blocklist_monotone (fix : Nat → Nat → List String → FixOut)
    (valid : Nat → Bool × Bool) :
    (∀ r st st2, st.n_patches ≠ 0 → ((valid r).1 || (valid r).2) = true →
        loopStep fix valid r st = StepOut.next st2 →
        st2.blocklist_entries = st.blocklist_entries
            ++ (fix r st.n_patches st.blocklist_entries).upgraded.filter
              (· ∉ st.applied_changes)
          ∧ st2.n_patches = st.n_patches)
    ∧ (∀ i j si sj, i ≤ j → traceState fix valid i = some si →
        traceState fix valid j = some sj →
        si.blocklist_entries <+: sj.blocklist_entries
          ∧ si.blocklist_entries ⊆ sj.blocklist_entries) := by
  constructor
  · intro r st st2 hn hv h
    rcases (loopStep_next_inv h).2 with ⟨_, h3, _⟩ | ⟨_, _, h4⟩ | ⟨h2, _, _⟩
    · exact absurd h3 hn
    · rw [h4]; exact ⟨rfl, rfl⟩
    · rw [hv] at h2; exact absurd h2 (by simp)
  · have key : ∀ i k si sj, traceState fix valid i = some si →
        traceState fix valid (i + k) = some sj →
        si.blocklist_entries <+: sj.blocklist_entries := by
      intro i k
      induction k with
      | zero =>
        intro si sj h1 h2
        have h2' : traceState fix valid i = some sj := h2
        rw [h1] at h2'
        rw [Option.some.inj h2']
      | succ k ih =>
        intro si sj h1 h2
        obtain ⟨sm, hm, hstep⟩ := @traceState_succ_inv fix valid (i + k) sj h2
        exact (ih si sm h1 hm).trans (loopStep_blocklist_extends hstep)
    intro i j si sj hij h1 h2
    obtain ⟨k, rfl⟩ := Nat.exists_eq_add_of_le hij
    have hp := key i k si sj h1 h2
    exact ⟨hp, hp.subset⟩

/-- C4 witness: an incremental failure on candidates `[pkgA, pkgB]`
with `applied = [pkgA]` appends exactly `pkgB`, keeps `n_patches`, and
the round-0 blocklist is a prefix of the round-1 blocklist. -/
theorem c4_witness :
    ((LoopState.mk ["pkgA"] ["pkgB"] 2 none).blocklist_entries
        = (LoopState.mk ["pkgA"] [] 2 none).blocklist_entries
          ++ (pairFix 0 2 []).upgraded.filter (· ∉ ["pkgA"])
      ∧ (LoopState.mk ["pkgA"] ["pkgB"] 2 none).n_patches
          = (LoopState.mk ["pkgA"] [] 2 none).n_patches)
    ∧ (initState.blocklist_entries
          <+: (LoopState.mk [] [] 1 (some 1)).blocklist_entries
        ∧ initState.blocklist_entries
          ⊆ (LoopState.mk [] [] 1 (some 1)).blocklist_entries) := by
  constructor
  · exact (c4_blocklist_monotone pairFix testsFailValid).1 0
      ⟨["pkgA"], [], 2, none⟩ ⟨["pkgA"], ["pkgB"], 2, none⟩
      (by decide) rfl (by decide)
  · exact (c4_blocklist_monotone pairFix testsFailValid).2 0 1
      initState ⟨[], [], 1, some 1⟩ (by decide) rfl (by decide)

/-! ## C5 — first unconstrained failure and the unfixable count -/

/-- While the loop has not entered incremental mode, `total_unfixable`
is still unset. -/
theorem trace_probe_unfixable_none (fix : Nat → Nat → List String → FixOut)
    (valid : Nat → Bool × Bool) :
    ∀ r st, traceState fix valid r = some st → st.n_patches = 0 →
      st.total_unfixable = none := by
  intro r
  induction r with
  | zero =>
    intro st h _
    simp only [traceState, Option.some.injEq] at h
    rw [← h]
    rfl
  | succ k ih =>
    intro st h h0
    obtain ⟨sp, hp, hstep⟩ := traceState_succ_inv h
    rcases (loopStep_next_inv hstep).2 with ⟨_, _, h4⟩ | ⟨_, h3, h4⟩ | ⟨_, h3, h4⟩
    · rw [h4] at h0
      exact absurd h0 (Nat.succ_ne_zero _)
    · rw [h4] at h0
      exact absurd h0 h3
    · rw [h4] at h0
      exact absurd h0 (Nat.succ_ne_zero _)

/-- C5: while `n_patches == 0`, a failed validation blocklists nothing,
records that attempt's unfixable count, and sets `n_patches = 1`; and a
run that never entered incremental mode (its state still has
`n_patches = 0`) has no recorded unfixable count and returns `None`
for it. -/
theorem c5_probe_failure_records_unfixable (fix : Nat → Nat → List String → FixOut)
    (valid : Nat → Bool × Bool) :
    (∀ r st st2, st.n_patches = 0 → loopStep fix valid r st = StepOut.next st2 →
        st2.blocklist_entries = st.blocklist_entries
          ∧ st2.total_unfixable = (fix r st.n_patches st.blocklist_entries).unfixable
          ∧ st2.n_patches = 1)
    ∧ (∀ r st, traceState fix valid r = some st → st.n_patches = 0 →
        st.total_unfixable = none)
    ∧ (∀ r st res, traceState fix valid r = some st →
        loopStep fix valid r st = StepOut.done res → st.n_patches = 0 →
        res.total_unfixable = none) := by
  refine ⟨?_, trace_probe_unfixable_none fix valid, ?_⟩
  · intro r st st2 h0 h
    rcases (loopStep_next_inv h).2 with ⟨_, h3, h4⟩ | ⟨_, h3, _⟩ | ⟨_, h3, _⟩
    · rw [h4, h3]
      exact ⟨rfl, rfl, rfl⟩
    · exact absurd h0 h3
    · exact absurd h0 h3
  · intro r st res htr hdone h0
    have hnone := trace_probe_unfixable_none fix valid r st htr h0
    rcases loopStep_done_inv hdone with ⟨_, hres⟩ | ⟨_, _, _, hres⟩ <;>
      rw [hres] <;> exact hnone

/-- C5 witness: the probe failure at round 0 records `unfixable = 1`
from that attempt, blocklists nothing, and sets `n_patches = 1`; and a
run that exits at round 0 (still `n_patches = 0`) returns no unfixable
count. -/
theorem c5_witness :
    ((LoopState.mk [] [] 1 (some 1)).blocklist_entries
        = initState.blocklist_entries
      ∧ (LoopState.mk [] [] 1 (some 1)).total_unfixable
          = (pairFix 0 initState.n_patches initState.blocklist_entries).unfixable
      ∧ (LoopState.mk [] [] 1 (some 1)).n_patches = 1)
    ∧ (LoopResult.mk [] none none []).total_unfixable = none := by
  constructor
  · exact (c5_probe_failure_records_unfixable pairFix testsFailValid).1 0
      initState ⟨[], [], 1, some 1⟩ rfl (by decide)
  · exact (c5_probe_failure_records_unfixable emptyFix passValid).2.2 0
      initState ⟨[], none, none, []⟩ rfl (by decide) rfl

/-! ## C6 — best-strategy replacement condition -/

/-- C6: after a strategy's run, the best result is replaced by that
strategy's outcome iff its applied set is non-empty, its remaining count
is known, and the count is strictly below the best so far; in every
other case (empty applied set, unknown count, or `best_remaining ≤
remaining`, hence in particular equality) the best result is kept. -/
theorem c6_best_update_characterization (b : Best) (s : List String) (r : LoopResult) :
    (∀ k, r.remaining_vulns = some k →
      ((r.applied_changes ≠ [] ∧ k < b.best_remaining →
          updateBest b s r =
            ⟨some s, r.applied_changes, r.blocklist_entries, k, r.total_unfixable⟩)
        ∧ (r.applied_changes = [] ∨ b.best_remaining ≤ k → updateBest b s r = b)))
    ∧ (r.remaining_vulns = none → updateBest b s r = b) := by
  constructor
  · intro k hk
    constructor
    · intro h
      simp [updateBest, hk, h.1, h.2]
    · intro h
      have hc : ¬(r.applied_changes ≠ [] ∧ k < b.best_remaining) := by
        rcases h with h | h
        · intro hc; exact hc.1 h
        · intro hc; exact absurd hc.2 (not_lt.mpr h)
      simp [updateBest, hk, hc]
  · intro h
    simp [updateBest, h]

/-- C6 witness: a strategy with one accepted change and `remaining = 3`
replaces the initial best, and a second strategy with the same
`remaining = 3` does not replace the first. -/
theorem c6_witness :
    updateBest initBest ["--strategy=in-place"] ⟨["pkgA"], some 3, none, []⟩
        = ⟨some ["--strategy=in-place"], ["pkgA"], [], 3, none⟩
      ∧ updateBest ⟨some ["--strategy=in-place"], ["pkgA"], [], 3, none⟩
          ["--strategy=relock"] ⟨["pkgB"], some 3, some 1, []⟩
        = ⟨some ["--strategy=in-place"], ["pkgA"], [], 3, none⟩ := by
  constructor
  · exact ((c6_best_update_characterization initBest ["--strategy=in-place"]
      ⟨["pkgA"], some 3, none, []⟩).1 3 rfl).1 ⟨by decide, by decide⟩
  · exact ((c6_best_update_characterization
      ⟨some ["--strategy=in-place"], ["pkgA"], [], 3, none⟩
      ["--strategy=relock"] ⟨["pkgB"], some 3, some 1, []⟩).1 3 rfl).2
      (Or.inr (by decide))

/-! ## C7 — `applied_changes` is only set to validated candidate sets -/

/-- C7: within a run, a round either leaves `applied_changes` unchanged
or sets it to that round's candidate set after both the install step and
the test step succeeded; it is never set to a candidate set whose
validation failed or was skipped. -/
theorem c7_applied_requires_validation (fix : Nat → Nat → List String → FixOut)
    (valid : Nat → Bool × Bool) (r : Nat) (st : LoopState) :
    (∀ st2, loopStep fix valid r st = StepOut.next st2 →
        st2.applied_changes = st.applied_changes
        ∨ (st2.applied_changes = (fix r st.n_patches st.blocklist_entries).upgraded
            ∧ (valid r).1 = false ∧ (valid r).2 = false))
    ∧ (∀ res, loopStep fix valid r st = StepOut.done res →
        res.applied_changes = st.applied_changes
        ∨ (res.applied_changes = (fix r st.n_patches st.blocklist_entries).upgraded
            ∧ (valid r).1 = false ∧ (valid r).2 = false)) := by
  constructor
  · intro st2 h
    rcases (loopStep_next_inv h).2 with ⟨_, _, h4⟩ | ⟨_, _, h4⟩ | ⟨h2, _, h4⟩
    · exact Or.inl (by rw [h4])
    · exact Or.inl (by rw [h4])
    · rcases Bool.or_eq_false_iff.mp h2 with ⟨hv1, hv2⟩
      exact Or.inr ⟨by rw [h4], hv1, hv2⟩
  · intro res h
    rcases loopStep_done_inv h with ⟨_, h4⟩ | ⟨_, h2, _, h4⟩
    · exact Or.inl (by rw [h4])
    · rcases Bool.or_eq_false_iff.mp h2 with ⟨hv1, hv2⟩
      exact Or.inr ⟨by rw [h4], hv1, hv2⟩

/-- C7 witness: the loop's first-round acceptance (all-at-once pass)
sets `applied_changes` to the validated candidate set. -/
theorem c7_witness :
    (LoopResult.mk ["pkgA", "pkgB"] (some 2) none []).applied_changes
        = initState.applied_changes
      ∨ ((LoopResult.mk ["pkgA", "pkgB"] (some 2) none []).applied_changes
            = (pairFix 0 initState.n_patches initState.blocklist_entries).upgraded
          ∧ (passValid 0).1 = false ∧ (passValid 0).2 = false) :=
  (c7_applied_requires_validation pairFix passValid 0 initState).2
    ⟨["pkgA", "pkgB"], some 2, none, []⟩ (by decide)

/-! ## C8 — the initial best remaining count -/

/-- C8 counterexample: the initial best `remaining` is not unbounded;
it is `sys.maxsize` (line 147), so a strategy whose run applied changes
and reported `remaining = sys.maxsize` does not replace the initial
(empty) best result, contradicting the claim for that count. -/
theorem c8_counterexample :
    updateBest initBest ["--strategy=in-place"] ⟨["pkgA"], some sys_maxsize, none, []⟩
      = initBest := by
  have h : ¬(sys_maxsize < initBest.best_remaining) := by
    simp [initBest]
  simp [updateBest, h]

/-- C8 (amended): the initial best remaining count is the finite
sentinel `sys.maxsize`; every strategy whose run produces a non-empty
applied set and a reported remaining count strictly below `sys.maxsize`
replaces the initial (empty) best result. -/
theorem c8_below_maxsize_wins (s : List String) (r : LoopResult) (k : Nat)
    (h1 : r.remaining_vulns = some k) (h2 : r.applied_changes ≠ [])
    (h3 : k < sys_maxsize) :
    updateBest initBest s r =
      ⟨some s, r.applied_changes, r.blocklist_entries, k, r.total_unfixable⟩ := by
  simp [updateBest, h1, initBest, h2, h3]

/-- C8 witness: a strategy with one accepted change and a reported
count of 0 replaces the initial best. -/
theorem c8_witness :
    updateBest initBest ["--strategy=relock"] ⟨["pkgB"], some 0, some 1, []⟩
      = ⟨some ["--strategy=relock"], ["pkgB"], [], 0, some 1⟩ :=
  c8_below_maxsize_wins ["--strategy=relock"] ⟨["pkgB"], some 0, some 1, []⟩ 0
    rfl (by decide) (by decide)

/-! ## C9 — reporting of the unfixable count -/

/-- C9 counterexample: with a known unfixable count of 0 the final
report omits the count — line 178 is `if best_unfixable:` and Python
treats the integer 0 as falsy — contradicting the claim that every
known count, including 0, is reported. -/
theorem c9_counterexample :
    reportShowsUnfixable ⟨some ["--strategy=in-place"], ["pkgA"], [], 3, some 0⟩
      = false := by
  rfl

/-- C9 (amended): the final report includes the winning strategy's
unfixable-by-upgrade count exactly when that count is known and
non-zero. -/
theorem c9_unfixable_reported_iff_nonzero (b : Best) :
    reportShowsUnfixable b = true ↔ ∃ k, b.best_unfixable = some k ∧ k ≠ 0 := by
  cases h : b.best_unfixable with
  | none => simp [reportShowsUnfixable, pyTruthyOptNat, h]
  | some k => simp [reportShowsUnfixable, pyTruthyOptNat, h, bne_iff_ne]

/-! ## C10 — the returned remaining count is the final acquisition's -/

/-- C10: whatever the behaviours, a terminating run returns exactly the
remaining count parsed by the acquisition call of the round the loop
exited in, regardless of counts reported by earlier rounds; and a run
whose final call reported no count (`remaining = None`) never replaces
the best result, whatever it applied. -/
theorem c10_remaining_from_final_acquisition (fix : Nat → Nat → List String → FixOut)
    (valid : Nat → Bool × Bool) :
    (∀ fuel res, run_loop fix valid fuel = some res →
      ∃ r st, traceState fix valid r = some st
        ∧ loopStep fix valid r st = StepOut.done res
        ∧ res.remaining_vulns = (fix r st.n_patches st.blocklist_entries).remaining)
    ∧ (∀ res : LoopResult, res.remaining_vulns = none →
        ∀ b s, updateBest b s res = b) := by
  constructor
  · intro fuel res h
    obtain ⟨r, st, htr, hdone⟩ :=
      loopGo_done_trace fix valid fuel 0 initState res rfl h
    refine ⟨r, st, htr, hdone, ?_⟩
    rcases loopStep_done_inv hdone with ⟨_, hres⟩ | ⟨_, _, _, hres⟩ <;> rw [hres]
  · intro res h b s
    simp [updateBest, h]

/-- C10 witness: a run exiting at its first round returns that round's
(absent) remaining count, and with `remaining = None` it cannot replace
the best result. -/
theorem c10_witness :
    (∃ r st, traceState emptyFix passValid r = some st
        ∧ loopStep emptyFix passValid r st = StepOut.done ⟨[], none, none, []⟩
        ∧ (LoopResult.mk [] none none []).remaining_vulns
            = (emptyFix r st.n_patches st.blocklist_entries).remaining)
      ∧ updateBest initBest ["--strategy=in-place"] ⟨[], none, none, []⟩
          = initBest :=
  ⟨(c10_remaining_from_final_acquisition emptyFix passValid).1 1
      ⟨[], none, none, []⟩ rfl,
    (c10_remaining_from_final_acquisition emptyFix passValid).2
      ⟨[], none, none, []⟩ rfl initBest ["--strategy=in-place"]⟩

/-! ## C1 — termination of the convergence loop -/

/-- With the always-`[pkgA]` acquisition and an always-failing
validator, no amount of fuel makes the loop exit: the candidate set
never equals the (forever empty) applied set and no round is a passing
`n_patches = 0` round. -/
theorem constAcq_never_exits : ∀ fuel r bl n u,
    loopGo constAcq failValid fuel r ⟨[], bl, n, u⟩ = none := by
  intro fuel
  induction fuel with
  | zero => intro r bl n u; rfl
  | succ m ih =>
    intro r bl n u
    by_cases hn : n = 0
    · subst hn
      have hstep : loopStep constAcq failValid r ⟨[], bl, 0, u⟩
          = StepOut.next ⟨[], bl, 1, none⟩ := rfl
      rw [loopGo, hstep]
      exact ih (r + 1) bl 1 none
    · have hstep := @loopStep_failn constAcq failValid r ⟨[], bl, n, u⟩
        (by simp [constAcq]) rfl hn
      rw [loopGo, hstep]
      exact ih (r + 1) (bl ++ ["pkgA"].filter (· ∉ ([] : List String))) n u

/-- C1 counterexample: an acquisition behaviour that is deterministic in
(blocklist, budget) and draws its candidates from the one-element
universe `{pkgA}`, together with an always-failing validator, makes the
loop run forever — determinism and a finite universe alone do not give
termination. -/
theorem c1_counterexample : ¬ LoopTerminates constAcq failValid := by
  rintro ⟨fuel, res, h⟩
  have h2 := constAcq_never_exits fuel 0 [] 0 none
  rw [show (⟨[], [], 0, none⟩ : LoopState) = initState from rfl] at h2
  rw [run_loop, h2] at h
  exact Option.noConfusion h

/-- The §4.2 acquisition contract of the spec: given a fixed ranking
(determined by the constant workspace baseline and the strategy), the
candidate set is the blocklist-filtered ranking, cut to its top `n` when
`n ≥ 1` and taken whole when `n = 0`. -/
def rankedCandidates (ranking : List String) (n : Nat) (bl : List String) :
    List String :=
  if n = 0 then ranking.filter (· ∉ bl) else (ranking.filter (· ∉ bl)).take n

/-- The blocklist-eligible part of the ranking. -/
def eligible (ranking bl : List String) : List String :=
  ranking.filter (· ∉ bl)

/-- Filtering out an element that is present strictly shortens a list. -/
theorem length_filter_lt {α : Type} (p : α → Bool) (l : List α) (x : α)
    (hx : x ∈ l) (hpx : p x = false) :
    (l.filter p).length < l.length := by
  induction l with
  | nil => cases hx
  | cons a t ih =>
    rw [List.filter_cons]
    rcases List.mem_cons.mp hx with rfl | hmem
    · rw [hpx]
      simp only [Bool.false_eq_true, if_false, List.length_cons]
      exact Nat.lt_succ_of_le (List.length_filter_le p t)
    · cases hpa : p a with
      | true =>
        simp only [if_true, List.length_cons]
        exact Nat.succ_lt_succ (ih hmem)
      | false =>
        simp only [Bool.false_eq_true, if_false, List.length_cons]
        exact Nat.lt_succ_of_lt (ih hmem)

/-- One incremental round (`n_patches ≠ 0`) under the ranked-prefix
acquisition contract either exits the loop or strictly decreases the
measure `2·|eligible| − |applied|` while preserving the invariants. -/
theorem ranked_round (ranking : List String) (hnd : ranking.Nodup)
    (fix : Nat → Nat → List String → FixOut)
    (hfix : ∀ r n bl, (fix r n bl).upgraded = rankedCandidates ranking n bl)
    (valid : Nat → Bool × Bool) (r : Nat) (st : LoopState)
    (hpre : st.applied_changes <+: eligible ranking st.blocklist_entries)
    (hn : st.n_patches ≠ 0) (hlen : st.applied_changes.length < st.n_patches) :
    (∃ res, loopStep fix valid r st = StepOut.done res)
    ∨ (∃ st2, loopStep fix valid r st = StepOut.next st2
        ∧ st2.applied_changes <+: eligible ranking st2.blocklist_entries
        ∧ st2.n_patches ≠ 0
        ∧ st2.applied_changes.length < st2.n_patches
        ∧ 2 * (eligible ranking st2.blocklist_entries).length
              - st2.applied_changes.length
            < 2 * (eligible ranking st.blocklist_entries).length
              - st.applied_changes.length) := by
  have hcand : (fix r st.n_patches st.blocklist_entries).upgraded
      = (eligible ranking st.blocklist_entries).take st.n_patches := by
    rw [hfix, rankedCandidates, if_neg hn]
    rfl
  by_cases hc : (fix r st.n_patches st.blocklist_entries).upgraded
      = st.applied_changes
  · exact Or.inl ⟨_, loopStep_fixedpoint hc⟩
  right
  have hmle : st.applied_changes.length
      ≤ (eligible ranking st.blocklist_entries).length := hpre.length_le
  have happtake : st.applied_changes
      = (eligible ranking st.blocklist_entries).take st.applied_changes.length :=
    List.prefix_iff_eq_take.mp hpre
  have hmlt : st.applied_changes.length
      < (eligible ranking st.blocklist_entries).length := by
    rcases Nat.lt_or_ge st.applied_changes.length
        (eligible ranking st.blocklist_entries).length with h | h
    · exact h
    · exfalso
      apply hc
      rw [hcand, List.take_of_length_le (le_trans h (Nat.le_of_lt hlen)),
        happtake, List.take_of_length_le h]
  have hmltc : st.applied_changes.length
      < ((eligible ranking st.blocklist_entries).take st.n_patches).length := by
    rw [List.length_take]
    exact lt_min hlen hmlt
  have happc : st.applied_changes
      <+: (eligible ranking st.blocklist_entries).take st.n_patches := by
    rw [happtake,
      show List.take st.applied_changes.length (eligible ranking st.blocklist_entries)
          = List.take st.applied_changes.length
            ((eligible ranking st.blocklist_entries).take st.n_patches) by
        rw [List.take_take, min_eq_left (Nat.le_of_lt hlen)]]
    exact List.take_prefix _ _
  obtain ⟨d, hd⟩ := happc
  have hdne : d ≠ [] := by
    intro h0
    apply hc
    rw [hcand, ← hd, h0, List.append_nil]
  have hLnd : (eligible ranking st.blocklist_entries).Nodup :=
    List.Nodup.filter _ hnd
  have hcnd : (st.applied_changes ++ d).Nodup := by
    rw [hd]
    exact List.Sublist.nodup (List.take_sublist _ _) hLnd
  have hdisj : ∀ x ∈ d, x ∉ st.applied_changes := by
    intro x hx hx2
    exact (List.nodup_append.mp hcnd).2.2 hx2 hx
  have hfilterc : ((eligible ranking st.blocklist_entries).take
      st.n_patches).filter (· ∉ st.applied_changes) = d := by
    rw [← hd, List.filter_append]
    rw [show st.applied_changes.filter (· ∉ st.applied_changes) = [] by
      rw [List.filter_eq_nil_iff]
      intro a ha
      simp [ha]]
    rw [show d.filter (· ∉ st.applied_changes) = d by
      rw [List.filter_eq_self]
      intro a ha
      simp [hdisj a ha]]
    rw [List.nil_append]
  cases hval : ((valid r).1 || (valid r).2) with
  | true =>
    refine ⟨_, loopStep_failn hc hval hn, ?_⟩
    have hbl2 : (fix r st.n_patches st.blocklist_entries).upgraded.filter
        (· ∉ st.applied_changes) = d := by
      rw [hcand]
      exact hfilterc
    have helig : eligible ranking (st.blocklist_entries ++ d)
        = (eligible ranking st.blocklist_entries).filter (· ∉ d) := by
      unfold eligible
      rw [List.filter_filter]
      apply List.filter_congr
      intro a _
      by_cases h1 : a ∈ st.blocklist_entries <;> by_cases h2 : a ∈ d <;>
        simp [h1, h2, List.mem_append]
    obtain ⟨t, ht⟩ := hpre
    have happf : (eligible ranking st.blocklist_entries).filter (· ∉ d)
        = st.applied_changes ++ t.filter (· ∉ d) := by
      rw [← ht, List.filter_append]
      rw [show st.applied_changes.filter (· ∉ d) = st.applied_changes by
        rw [List.filter_eq_self]
        intro a ha
        simp only [decide_eq_true_eq]
        exact fun had => hdisj a had ha]
    have hlt : ((eligible ranking st.blocklist_entries).filter (· ∉ d)).length
        < (eligible ranking st.blocklist_entries).length := by
      obtain ⟨x, hx⟩ := List.exists_mem_of_ne_nil d hdne
      apply length_filter_lt _ _ x
      · have hxc : x ∈ (eligible ranking st.blocklist_entries).take st.n_patches := by
          rw [← hd]
          exact List.mem_append_right _ hx
        exact (List.take_sublist _ _).subset hxc
      · simp [hx]
    have hm2 : st.applied_changes.length
        ≤ ((eligible ranking st.blocklist_entries).filter (· ∉ d)).length := by
      rw [happf, List.length_append]
      exact Nat.le_add_right _ _
    refine ⟨?_, hn, hlen, ?_⟩
    · show st.applied_changes <+: eligible ranking (st.blocklist_entries
        ++ (fix r st.n_patches st.blocklist_entries).upgraded.filter
            (· ∉ st.applied_changes))
      rw [hbl2, helig, happf]
      exact List.prefix_append _ _
    · show 2 * (eligible ranking (st.blocklist_entries
            ++ (fix r st.n_patches st.blocklist_entries).upgraded.filter
                (· ∉ st.applied_changes))).length - st.applied_changes.length
          < 2 * (eligible ranking st.blocklist_entries).length
            - st.applied_changes.length
      rw [hbl2, helig]
      omega
  | false =>
    refine ⟨_, loopStep_passn hc hval hn, ?_, ?_, ?_, ?_⟩
    · show (fix r st.n_patches st.blocklist_entries).upgraded
        <+: eligible ranking st.blocklist_entries
      rw [hcand]
      exact List.take_prefix _ _
    · exact Nat.succ_ne_zero _
    · show ((fix r st.n_patches st.blocklist_entries).upgraded).length
        < st.n_patches + 1
      rw [hcand, List.length_take]
      omega
    · show 2 * (eligible ranking st.blocklist_entries).length
          - ((fix r st.n_patches st.blocklist_entries).upgraded).length
        < 2 * (eligible ranking st.blocklist_entries).length
          - st.applied_changes.length
      rw [hcand, List.length_take]
      rw [List.length_take] at hmltc
      omega

/-- From any incremental state satisfying the invariants, the loop
exits within a fuel bounded by the measure. -/
theorem ranked_incremental_terminates (ranking : List String) (hnd : ranking.Nodup)
    (fix : Nat → Nat → List String → FixOut)
    (hfix : ∀ r n bl, (fix r n bl).upgraded = rankedCandidates ranking n bl)
    (valid : Nat → Bool × Bool) :
    ∀ μ r st, st.applied_changes <+: eligible ranking st.blocklist_entries →
      st.n_patches ≠ 0 → st.applied_changes.length < st.n_patches →
      2 * (eligible ranking st.blocklist_entries).length
          - st.applied_changes.length ≤ μ →
      ∃ fuel res, loopGo fix valid fuel r st = some res := by
  intro μ
  induction μ with
  | zero =>
    intro r st h1 h2 h3 h4
    rcases ranked_round ranking hnd fix hfix valid r st h1 h2 h3 with
      ⟨res, hres⟩ | ⟨st2, _, _, _, _, hdec⟩
    · exact ⟨1, res, by rw [loopGo, hres]⟩
    · omega
  | succ μ ih =>
    intro r st h1 h2 h3 h4
    rcases ranked_round ranking hnd fix hfix valid r st h1 h2 h3 with
      ⟨res, hres⟩ | ⟨st2, hstep, hA, hB, hC, hdec⟩
    · exact ⟨1, res, by rw [loopGo, hres]⟩
    · obtain ⟨fuel, res, hh⟩ := ih (r + 1) st2 hA hB hC (by omega)
      exact ⟨fuel + 1, res, by rw [loopGo, hstep]; exact hh⟩

/-- C1 (amended): determinism and finiteness alone do not suffice, but
under the spec's §4.2 contract — candidates are the top-`n` prefix of a
fixed duplicate-free ranking with blocklisted packages excluded, the
whole eligible ranking when `n = 0` — the convergence loop terminates
for every validator behaviour: the blocklist-filtered ranking shrinks on
every incremental failure and the accepted prefix grows on every
incremental pass, so the fixed point is reached. -/
theorem c1_ranked_termination (ranking : List String) (hnd : ranking.Nodup)
    (fix : Nat → Nat → List String → FixOut)
    (hfix : ∀ r n bl, (fix r n bl).upgraded = rankedCandidates ranking n bl)
    (valid : Nat → Bool × Bool) :
    LoopTerminates fix valid := by
  by_cases hc : (fix 0 0 []).upgraded = ([] : List String)
  · exact ⟨1, _, by rw [run_loop, loopGo, loopStep_fixedpoint hc]⟩
  · cases hval : ((valid 0).1 || (valid 0).2) with
    | false =>
      exact ⟨1, _, by rw [run_loop, loopGo, loopStep_pass0 hc hval rfl]⟩
    | true =>
      have hstep := @loopStep_fail0 fix valid 0 initState hc hval rfl
      obtain ⟨fuel, res, hh⟩ :=
        ranked_incremental_terminates ranking hnd fix hfix valid
          (2 * (eligible ranking []).length) 1
          ⟨[], [], 1, (fix 0 0 []).unfixable⟩
          List.nil_prefix Nat.one_ne_zero Nat.zero_lt_one (Nat.sub_le _ _)
      exact ⟨fuel + 1, res, by rw [run_loop, loopGo, hstep]; exact hh⟩

/-- A concrete ranked-prefix acquisition over the two-package universe
`{pkgA, pkgB}`. -/
def wRankedFix : Nat → Nat → List String → FixOut :=
  fun _ n bl => ⟨rankedCandidates ["pkgA", "pkgB"] n bl, some 0, none⟩

/-- C1 witness: the amended termination theorem applied to a concrete
two-package ranking and the always-passing validator. -/
theorem c1_witness : LoopTerminates wRankedFix passValid :=
  c1_ranked_termination ["pkgA", "pkgB"] (by decide) wRankedFix
    (fun _ _ _ => rfl) passValid

end AutoGuidedRemediation
